import Mathlib

/-!
Verification of the `nail` JSON parsing library (Rust sources:
`src/tokenizer.rs`, `src/parser.rs`, `src/types.rs`, `src/lib.rs`).

The development shallowly embeds the tokenizer and the recursive-descent
parser over `List Char` / `List Token`.  Machine integers are modelled as
`Int`/`Nat` with explicit signed 32-bit range checks where the source
performs `i32` parsing; `f64` literals are modelled exactly as rationals
(the tokenizer only ever feeds sign/digits/single-dot literals to the
float parser, so no exponent, infinity or NaN forms can arise and exact
rational semantics agrees with the variant-level behaviour of the code).
Loops that the source expresses with iterators are expressed as
structural recursion on the character list wherever possible; the main
token loop and the mutually recursive parser run on an explicit fuel
argument that is provably sufficient (the error inventory theorems below
show the fuel sentinel is unreachable from the public entry point).
-/

namespace Nail

/-- `types.rs`: `Number` — `Float(f64)` or `Int(i32)`.  The float payload is
modelled exactly as a rational; the int payload as an `Int` whose producers
enforce the signed 32-bit range. -/
inductive Number where
  | float (q : ℚ)
  | int (n : Int)
deriving DecidableEq

/-- Discriminates the `Float` variant of `Number`. -/
def Number.isFloat : Number → Bool
  | .float _ => true
  | .int _ => false

/-- `tokenizer.rs`: the `Token` enum. -/
inductive Token where
  | leftBrace
  | rightBrace
  | leftBracket
  | rightBracket
  | colon
  | comma
  | string (s : String)
  | number (n : Number)
  | boolean (b : Bool)
  | null
deriving DecidableEq

mutual
/-- `types.rs`: `JsonValue`. -/
inductive JsonValue where
  | null
  | number (n : Number)
  | string (s : String)
  | boolean (b : Bool)
  | document (d : JsonDocument)

/-- `types.rs`: `JsonDocument`.  The object payload models
`HashMap<String, JsonValue>` as an association list; `mapInsert` below
implements the `HashMap::insert` overwrite semantics used by the parser. -/
inductive JsonDocument where
  | array (xs : List JsonValue)
  | object (entries : List (String × JsonValue))
end

/-- Digit-string evaluation used by both numeric parsers. -/
def digitsToNat (ds : List Char) : Nat :=
  ds.foldl (fun a c => a * 10 + (c.toNat - 48)) 0

/-- The digit-run check `std` performs while parsing integers. -/
def parseI32Digits (ds : List Char) : Option Nat :=
  if ds = [] then none
  else if ds.all (·.isDigit) then some (digitsToNat ds) else none

/-- Models `i32::from_str` (`s.parse::<i32>()`): optional sign, one or more
ASCII digits, failure on anything else or on values outside
`[-2^31, 2^31 - 1]` (overflow is an error, never a wrap). -/
def parseI32 (s : List Char) : Option Int :=
  match s with
  | [] => none
  | c :: rest =>
    if c = '-' then
      (parseI32Digits rest).bind fun v =>
        if v ≤ 2 ^ 31 then some (-(v : Int)) else none
    else if c = '+' then
      (parseI32Digits rest).bind fun v =>
        if v ≤ 2 ^ 31 - 1 then some ((v : Int)) else none
    else
      (parseI32Digits s).bind fun v =>
        if v ≤ 2 ^ 31 - 1 then some ((v : Int)) else none

/-- Unsigned decimal literal: digits, optionally followed by `.` and digits
(at least one digit overall), evaluated exactly. -/
def parseDec (s : List Char) : Option ℚ :=
  let ip := s.takeWhile (·.isDigit)
  let rest := s.dropWhile (·.isDigit)
  match rest with
  | [] => if ip = [] then none else some ((digitsToNat ip : ℚ))
  | c :: frac =>
    if c = '.' ∧ frac.all (·.isDigit) ∧ (ip ≠ [] ∨ frac ≠ []) then
      some ((digitsToNat ip : ℚ) + (digitsToNat frac : ℚ) / (10 : ℚ) ^ frac.length)
    else none

/-- Models `f64::from_str` (`s.parse::<f64>()`) on the literals this
tokenizer can produce (optional sign, digits, at most one dot), with exact
rational semantics.  The richer `f64` grammar (exponents, `inf`, `NaN`) is
unreachable here because the number scanner only accumulates `-`, digits
and a single `.`. -/
def parseF64 (s : List Char) : Option ℚ :=
  match s with
  | [] => none
  | c :: rest =>
    if c = '-' then (parseDec rest).map (fun q => -q)
    else if c = '+' then parseDec rest
    else parseDec (c :: rest)

/-- `tokenizer.rs` `parse_number`: dispatch on `is_float`; a float parse
failure is `Invalid float`, an integer parse failure (including 32-bit
overflow) is `Invalid integer`. -/
def parseNumber (s : List Char) (isFloat : Bool) : Except String Number :=
  if isFloat then
    match parseF64 s with
    | some q => .ok (.float q)
    | none => .error "Invalid float"
  else
    match parseI32 s with
    | some n => .ok (.int n)
    | none => .error "Invalid integer"

/-- The terminator set of the number scanner (`','`, `'\n'`, `'\r'`, `' '`,
closing brace, `']'`). -/
def isNumTerminator (c : Char) : Bool :=
  c = ',' || c = '\n' || c = '\r' || c = ' ' || c = '\x7d' || c = ']'

/-- `tokenizer.rs` `try_tokenize_number`, main loop: accumulate digits and at
most one dot (the dot must follow a digit), stop at a terminator or
end-of-input, fail with `Invalid number` on a second dot, a dot without a
preceding digit, a later `-`, or any other character.  Returns the parsed
number together with the unconsumed remainder of the input. -/
def numLoop (acc : List Char) (hasDot hasNum : Bool) : List Char → Except String (Number × List Char)
  | [] =>
    if hasNum then (parseNumber acc hasDot).map (fun n => (n, ([] : List Char)))
    else .error "Invalid number"
  | c :: cs =>
    if c.isDigit then numLoop (acc ++ [c]) hasDot true cs
    else if c = '.' then
      if hasDot then .error "Invalid number"
      else if hasNum = false then .error "Invalid number"
      else numLoop (acc ++ [c]) true hasNum cs
    else if isNumTerminator c then
      (parseNumber acc hasDot).map (fun n => (n, c :: cs))
    else .error "Invalid number"

/-- `tokenizer.rs` `try_tokenize_number`: consume a leading `-` if present,
then run the accumulation loop. -/
def tokenizeNumber (cs : List Char) : Except String (Number × List Char) :=
  match cs with
  | c :: rest =>
    if c = '-' then numLoop [c] false false rest
    else numLoop [] false false (c :: rest)
  | [] => numLoop [] false false []

/-- Is `c` one of the 16 ASCII hex digits (`char::is_ascii_hexdigit`)? -/
def isHexDigitChar (c : Char) : Bool :=
  c.isDigit || ('a' ≤ c && c ≤ 'f') || ('A' ≤ c && c ≤ 'F')

/-- Value of an ASCII hex digit. -/
def hexVal (c : Char) : Nat :=
  if c.isDigit then c.toNat - 48
  else if 'a' ≤ c then c.toNat - 87
  else c.toNat - 55

/-- Models `char::from_u32`: `None` exactly on UTF-16 surrogate code points
and on values above `0x10FFFF`. -/
def charFromU32 (n : Nat) : Option Char :=
  if n < 0xD800 then some (Char.ofNat n)
  else if n ≤ 0xDFFF then none
  else if n ≤ 0x10FFFF then some (Char.ofNat n)
  else none

/-- `tokenizer.rs` `try_tokenize_string`, main loop (the caller has already
consumed the opening quote): copy characters until an unescaped quote,
decoding the recognized escapes; each `\uXXXX` escape requires exactly four
hex digits and a code point accepted by `char::from_u32`. -/
def stringLoop (acc : List Char) : List Char → Except String (String × List Char)
  | [] => .error "EOF reached when parsing string"
  | c :: cs =>
    if c = '\"' then .ok (String.mk acc, cs)
    else if c = '\\' then
      match cs with
      | [] => .error "EOF reached when parsing escape sequence"
      | e :: cs2 =>
        if e = '\"' then stringLoop (acc ++ ['\"']) cs2
        else if e = '\\' then stringLoop (acc ++ ['\\']) cs2
        else if e = '/' then stringLoop (acc ++ ['/']) cs2
        else if e = 'b' then stringLoop (acc ++ ['\x08']) cs2
        else if e = 'f' then stringLoop (acc ++ ['\x0c']) cs2
        else if e = 'n' then stringLoop (acc ++ ['\n']) cs2
        else if e = 'r' then stringLoop (acc ++ ['\r']) cs2
        else if e = 't' then stringLoop (acc ++ ['\t']) cs2
        else if e = 'u' then
          match cs2 with
          | c1 :: c2 :: c3 :: c4 :: cs3 =>
            if isHexDigitChar c1 && isHexDigitChar c2 && isHexDigitChar c3 && isHexDigitChar c4 then
              match charFromU32 (((hexVal c1 * 16 + hexVal c2) * 16 + hexVal c3) * 16 + hexVal c4) with
              | some u => stringLoop (acc ++ [u]) cs3
              | none => .error "Invalid unicode code point"
            else .error "Invalid unicode escape sequence"
          | _ => .error "Invalid unicode escape sequence"
        else .error "Invalid escape sequence"
    else stringLoop (acc ++ [c]) cs

/-- `tokenizer.rs` `match_exact_word`: the next `word.length` characters must
equal `word`. -/
def matchExactWord (cs word : List Char) : Bool :=
  cs.take word.length == word

/-- The action the `tokenize_json` match takes for a peeked character:
one arm per Rust match arm, in source order. -/
inductive CharClass where
  | structural (t : Token)
  | keyword (w : List Char) (t : Token)
  | quote
  | numberStart
  | whitespace
  | invalid

/-- Arm selection of the `tokenize_json` match, in source order: the six
structural characters, `n`/`t`/`f` keyword starts, `"`, digit or `-`,
whitespace (space, newline, carriage return — not tab), anything else
invalid. -/
def classify (c : Char) : CharClass :=
  if c = '\x7b' then .structural Token.leftBrace
  else if c = '\x7d' then .structural Token.rightBrace
  else if c = '[' then .structural Token.leftBracket
  else if c = ']' then .structural Token.rightBracket
  else if c = ':' then .structural Token.colon
  else if c = ',' then .structural Token.comma
  else if c = 'n' then .keyword ['n', 'u', 'l', 'l'] Token.null
  else if c = 't' then .keyword ['t', 'r', 'u', 'e'] (Token.boolean true)
  else if c = 'f' then .keyword ['f', 'a', 'l', 's', 'e'] (Token.boolean false)
  else if c = '\"' then .quote
  else if c.isDigit || c = '-' then .numberStart
  else if c = ' ' || c = '\n' || c = '\r' then .whitespace
  else .invalid

/-- `tokenizer.rs` `tokenize_json`, main scanning loop.  One unit of fuel is
spent per iteration; every iteration consumes at least one character, so
fuel exceeding the input length (as supplied by `tokenizeJson`) can never
run out — see `tokLoop_error_inventory`. -/
def tokLoop (fuel : Nat) (cs : List Char) : Except String (List Token) :=
  match cs with
  | [] => .ok []
  | c :: cs' =>
    match fuel with
    | 0 => .error "out of fuel"
    | fuel' + 1 =>
      match classify c with
      | .structural t => (tokLoop fuel' cs').map (t :: ·)
      | .keyword w t =>
        if matchExactWord (c :: cs') w then
          (tokLoop fuel' ((c :: cs').drop w.length)).map (t :: ·)
        else .error "Invalid JSON"
      | .quote =>
        match stringLoop [] cs' with
        | .ok (s, rest) => (tokLoop fuel' rest).map (Token.string s :: ·)
        | .error e => .error e
      | .numberStart =>
        match tokenizeNumber (c :: cs') with
        | .ok (n, rest) => (tokLoop fuel' rest).map (Token.number n :: ·)
        | .error e => .error e
      | .whitespace => tokLoop fuel' cs'
      | .invalid => .error "Invalid JSON"

/-- `tokenizer.rs` `tokenize_json` on a character list, with sufficient
fuel. -/
def tokenizeJson (cs : List Char) : Except String (List Token) :=
  tokLoop (cs.length + 1) cs

/-- Association-list model of `HashMap::insert`: overwrite the binding if
the key is present, otherwise add it. -/
def mapInsert (m : List (String × JsonValue)) (k : String) (v : JsonValue) :
    List (String × JsonValue) :=
  if m.any (fun p => p.1 == k) then
    m.map (fun p => if p.1 == k then (k, v) else p)
  else m ++ [(k, v)]

/-- Association-list model of `HashMap` lookup: the value the mapping holds
for `k`, if any. -/
def mapLookup (m : List (String × JsonValue)) (k : String) : Option JsonValue :=
  match m with
  | [] => none
  | p :: rest => if p.1 == k then some p.2 else mapLookup rest k

/-- Fold `mapInsert` over an entry list, in order: exactly the sequence of
`HashMap::insert` calls `parse_object` performs for the entries it reads. -/
def insertAll (m : List (String × JsonValue)) :
    List (String × JsonValue) → List (String × JsonValue)
  | [] => m
  | (k, v) :: rest => insertAll (mapInsert m k v) rest

/-- The value of the LAST entry carrying key `k` in an entry list. -/
def lastValue (es : List (String × JsonValue)) (k : String) : Option JsonValue :=
  match es with
  | [] => none
  | (k0, v0) :: rest =>
    match lastValue rest k with
    | some v => some v
    | none => if k0 == k then some v0 else none

mutual
/-- `parser.rs` `parse_value`: dispatch on the next token, recursing into
`parse_object` / `parse_array` after `\x7b` / `[`. -/
def parseValue : Nat → List Token → Except String (JsonValue × List Token)
  | 0, _ => .error "out of fuel"
  | fuel + 1, ts =>
    match ts with
    | Token.leftBrace :: rest =>
      match parseObjectLoop fuel [] rest with
      | .ok (d, rest2) => .ok (.document d, rest2)
      | .error e => .error e
    | Token.leftBracket :: rest =>
      match parseArrayLoop fuel [] rest with
      | .ok (d, rest2) => .ok (.document d, rest2)
      | .error e => .error e
    | Token.null :: rest => .ok (.null, rest)
    | Token.number n :: rest => .ok (.number n, rest)
    | Token.string s :: rest => .ok (.string s, rest)
    | Token.boolean b :: rest => .ok (.boolean b, rest)
    | _ => .error "Unexpected token"

/-- `parser.rs` `parse_object`, entered after the opening brace: expect a
closing brace or a `key : value` entry, insert it (overwriting a duplicate
key), then a comma continues and a closing brace returns. -/
def parseObjectLoop : Nat → List (String × JsonValue) → List Token →
    Except String (JsonDocument × List Token)
  | 0, _, _ => .error "out of fuel"
  | fuel + 1, m, ts =>
    match ts with
    | Token.rightBrace :: rest => .ok (.object m, rest)
    | Token.string key :: rest =>
      match rest with
      | Token.colon :: rest2 =>
        match parseValue fuel rest2 with
        | .ok (v, rest3) =>
          match rest3 with
          | Token.comma :: rest4 => parseObjectLoop fuel (mapInsert m key v) rest4
          | Token.rightBrace :: rest4 => .ok (.object (mapInsert m key v), rest4)
          | _ => .error "Unexpected token"
        | .error e => .error e
      | _ => .error "Unexpected token"
    | _ => .error "Unexpected token"

/-- `parser.rs` `parse_array`: peek — a closing bracket ends the array,
otherwise parse a value and expect a comma or a closing bracket;
end-of-tokens while expecting an element is `Unexpected end of array`. -/
def parseArrayLoop : Nat → List JsonValue → List Token →
    Except String (JsonDocument × List Token)
  | 0, _, _ => .error "out of fuel"
  | fuel + 1, arr, ts =>
    match ts with
    | Token.rightBracket :: rest => .ok (.array arr, rest)
    | [] => .error "Unexpected end of array"
    | _ =>
      match parseValue fuel ts with
      | .ok (v, rest2) =>
        match rest2 with
        | Token.comma :: rest3 => parseArrayLoop fuel (arr ++ [v]) rest3
        | Token.rightBracket :: rest3 => .ok (.array (arr ++ [v]), rest3)
        | _ => .error "Unexpected token"
      | .error e => .error e
end

/-- Specification-side reading of an object body: the `(key, value)` entries
in source order, duplicates kept, with each value parsed by the very same
`parseValue`.  This is not a source function — it only serves to state the
duplicate-key claim; `parseObjectLoop_entries` proves that whenever the
source's object loop succeeds, this reading succeeds on the same tokens
with the same remainder and the loop's result is the `mapInsert` fold of
exactly these entries. -/
def objEntries : Nat → List Token → Except String (List (String × JsonValue) × List Token)
  | 0, _ => .error "out of fuel"
  | fuel + 1, ts =>
    match ts with
    | Token.rightBrace :: rest => .ok ([], rest)
    | Token.string key :: rest =>
      match rest with
      | Token.colon :: rest2 =>
        match parseValue fuel rest2 with
        | .ok (v, rest3) =>
          match rest3 with
          | Token.comma :: rest4 =>
            match objEntries fuel rest4 with
            | .ok (es, rest5) => .ok ((key, v) :: es, rest5)
            | .error e => .error e
          | Token.rightBrace :: rest4 => .ok ([(key, v)], rest4)
          | _ => .error "Unexpected token"
        | .error e => .error e
      | _ => .error "Unexpected token"
    | _ => .error "Unexpected token"

/-- `parser.rs` `parse_tokens`: the first token must open an object or an
array; everything else (including an empty token list) is `Invalid JSON`.
The remaining cursor position after the root closes is discarded, exactly
as in the source. -/
def parseTokens (ts : List Token) : Except String JsonDocument :=
  match ts with
  | Token.leftBrace :: rest =>
    match parseObjectLoop (2 * ts.length + 2) [] rest with
    | .ok (d, _) => .ok d
    | .error e => .error e
  | Token.leftBracket :: rest =>
    match parseArrayLoop (2 * ts.length + 2) [] rest with
    | .ok (d, _) => .ok d
    | .error e => .error e
  | _ => .error "Invalid JSON"

/-- `lib.rs` `parse_json`: tokenize, then parse the token list. -/
def parseJson (s : String) : Except String JsonDocument :=
  match tokenizeJson s.toList with
  | .ok toks => parseTokens toks
  | .error e => .error e

/-- The error messages the Rust source can produce (its full taxonomy). -/
def sourceErrorMessages : List String :=
  ["Invalid JSON", "EOF reached when parsing string",
   "EOF reached when parsing escape sequence", "Invalid escape sequence",
   "Invalid unicode escape sequence", "Invalid unicode code point",
   "Invalid number", "Invalid float", "Invalid integer",
   "Unexpected token", "Unexpected end of array"]

/-! ## Lemmas about the number scanner -/

theorem parseNumber_isFloat {s : List Char} {f : Bool} {n : Number}
    (h : parseNumber s f = .ok n) : n.isFloat = f := by
  cases f with
  | false =>
    simp only [parseNumber, Bool.false_eq_true, if_false] at h
    cases hp : parseI32 s with
    | some v => rw [hp] at h; simp only [Except.ok.injEq] at h; rw [← h]; rfl
    | none => rw [hp] at h; exact Except.noConfusion h
  | true =>
    simp only [parseNumber, if_true] at h
    cases hp : parseF64 s with
    | some q => rw [hp] at h; simp only [Except.ok.injEq] at h; rw [← h]; rfl
    | none => rw [hp] at h; exact Except.noConfusion h

theorem parseNumber_error_inventory {s : List Char} {f : Bool} {e : String}
    (h : parseNumber s f = .error e) : e = "Invalid float" ∨ e = "Invalid integer" := by
  cases f with
  | false =>
    simp only [parseNumber, Bool.false_eq_true, if_false] at h
    cases hp : parseI32 s with
    | some v => rw [hp] at h; exact Except.noConfusion h
    | none =>
      rw [hp] at h
      simp only [Except.error.injEq] at h
      exact Or.inr h.symm
  | true =>
    simp only [parseNumber, if_true] at h
    cases hp : parseF64 s with
    | some q => rw [hp] at h; exact Except.noConfusion h
    | none =>
      rw [hp] at h
      simp only [Except.error.injEq] at h
      exact Or.inl h.symm

theorem digit_ne_dot {c : Char} (h : c.isDigit = true) : c ≠ '.' := by
  intro hc; rw [hc] at h; exact absurd h (by decide)

/-- Every successful exit of the scanning loop: the consumed literal is a
strict description of the split, the result is a float exactly when a dot
was seen, and the unconsumed remainder is empty or starts with a
terminator. -/
theorem numLoop_ok_facts {cs : List Char} :
    ∀ {acc : List Char} {hd hn : Bool} {n : Number} {rest : List Char},
    numLoop acc hd hn cs = .ok (n, rest) →
    ∃ lit, cs = lit ++ rest ∧ (n.isFloat = true ↔ (hd = true ∨ '.' ∈ lit)) ∧
      (rest = [] ∨ ∃ c cs', rest = c :: cs' ∧ isNumTerminator c = true) ∧
      (lit = [] → parseNumber acc hd = .ok n) := by
  induction cs with
  | nil =>
    intro acc hd hn n rest h
    simp only [numLoop] at h
    split at h
    · cases hp : parseNumber acc hd with
      | ok n' =>
        rw [hp] at h
        simp only [Except.map, Except.ok.injEq, Prod.mk.injEq] at h
        obtain ⟨rfl, rfl⟩ := h
        exact ⟨[], by simp, by simp [parseNumber_isFloat hp], Or.inl rfl, fun _ => rfl⟩
      | error e => rw [hp] at h; simp [Except.map] at h
    · simp at h
  | cons c cs ih =>
    intro acc hd hn n rest h
    simp only [numLoop] at h
    split at h
    · rename_i hdig
      obtain ⟨lit, heq, hiff, hrest, -⟩ := ih h
      refine ⟨c :: lit, by simp [heq], ?_, hrest, fun hh => absurd hh (List.cons_ne_nil _ _)⟩
      have hc : ('.' ∈ c :: lit) ↔ ('.' ∈ lit) := by
        simp only [List.mem_cons]
        constructor
        · rintro (h' | h')
          · exact absurd h'.symm (digit_ne_dot hdig)
          · exact h'
        · exact Or.inr
      rw [hc]; exact hiff
    · split at h
      · -- c = '.'
        rename_i hcdot
        split at h
        · exact Except.noConfusion h
        · split at h
          · exact Except.noConfusion h
          · -- recurse with hasDot := true
            obtain ⟨lit, heq, hiff, hrest, -⟩ := ih h
            refine ⟨c :: lit, by simp [heq], ?_, hrest, fun hh => absurd hh (List.cons_ne_nil _ _)⟩
            have hfl : n.isFloat = true := hiff.mpr (Or.inl rfl)
            simp [hfl, hcdot]
      · split at h
        · -- terminator: hand the literal to parseNumber, keep the rest
          rename_i hterm
          cases hp : parseNumber acc hd with
          | ok n' =>
            rw [hp] at h
            simp only [Except.map, Except.ok.injEq, Prod.mk.injEq] at h
            obtain ⟨rfl, rfl⟩ := h
            exact ⟨[], by simp, by simp [parseNumber_isFloat hp],
              Or.inr ⟨c, cs, rfl, hterm⟩, fun _ => rfl⟩
          | error e => rw [hp] at h; exact Except.noConfusion h
        · exact Except.noConfusion h

theorem numLoop_error_inventory {cs : List Char} :
    ∀ {acc : List Char} {hd hn : Bool} {e : String},
    numLoop acc hd hn cs = .error e →
    e = "Invalid number" ∨ e = "Invalid float" ∨ e = "Invalid integer" := by
  induction cs with
  | nil =>
    intro acc hd hn e h
    simp only [numLoop] at h
    split at h
    · cases hp : parseNumber acc hd with
      | ok n' => rw [hp] at h; simp [Except.map] at h
      | error e' =>
        rw [hp] at h
        simp only [Except.map, Except.error.injEq] at h
        subst h
        exact Or.inr (parseNumber_error_inventory hp)
    · simp only [Except.error.injEq] at h; exact Or.inl h.symm
  | cons c cs ih =>
    intro acc hd hn e h
    simp only [numLoop] at h
    split at h
    · exact ih h
    · split at h
      · -- c = '.'
        split at h
        · simp only [Except.error.injEq] at h; exact Or.inl h.symm
        · split at h
          · simp only [Except.error.injEq] at h; exact Or.inl h.symm
          · exact ih h
      · split at h
        · -- terminator
          cases hp : parseNumber acc hd with
          | ok n' => rw [hp] at h; exact Except.noConfusion h
          | error e' =>
            rw [hp] at h
            simp only [Except.map, Except.error.injEq] at h
            subst h
            exact Or.inr (parseNumber_error_inventory hp)
        · simp only [Except.error.injEq] at h; exact Or.inl h.symm

/-- On an all-digit tail the scanning loop runs to end-of-input and hands
the whole accumulated literal to `parseNumber`. -/
theorem numLoop_all_digits {ds : List Char} (hne : ds ≠ [])
    (hall : ∀ c ∈ ds, c.isDigit = true) :
    ∀ {acc : List Char} {hd : Bool} {hn : Bool},
    numLoop acc hd hn ds = (parseNumber (acc ++ ds) hd).map (fun n => (n, ([] : List Char))) := by
  induction ds with
  | nil => exact absurd rfl hne
  | cons d ds ih =>
    intro acc hd hn
    have hd' : d.isDigit = true := hall d (by simp)
    simp only [numLoop, hd', if_true]
    cases ds with
    | nil => simp [numLoop]
    | cons d2 rest =>
      rw [ih (by simp) (fun c hc => hall c (List.mem_cons_of_mem d hc))]
      simp

/-- `try_tokenize_number` at the top level: the facts of `numLoop_ok_facts`,
with the optional leading minus folded into the literal. -/
theorem tokenizeNumber_ok_facts {cs : List Char} {n : Number} {rest : List Char}
    (h : tokenizeNumber cs = .ok (n, rest)) :
    ∃ lit, cs = lit ++ rest ∧ (n.isFloat = true ↔ '.' ∈ lit) ∧
      (rest = [] ∨ ∃ c cs', rest = c :: cs' ∧ isNumTerminator c = true) := by
  cases cs with
  | nil => exact Except.noConfusion h
  | cons c tl =>
    simp only [tokenizeNumber] at h
    split at h
    · rename_i hminus
      obtain ⟨lit, heq, hiff, hrest, -⟩ := numLoop_ok_facts h
      refine ⟨c :: lit, by simp [heq], ?_, hrest⟩
      have hc : ('.' ∈ c :: lit) ↔ ('.' ∈ lit) := by
        simp only [List.mem_cons]
        constructor
        · rintro (h' | h')
          · rw [hminus] at h'; exact absurd h' (by decide)
          · exact h'
        · exact Or.inr
      rw [hc]
      simpa using hiff
    · obtain ⟨lit, heq, hiff, hrest, -⟩ := numLoop_ok_facts h
      exact ⟨lit, heq, by simpa using hiff, hrest⟩

theorem parseI32_pos_overflow {ds : List Char} (hne : ds ≠ [])
    (hall : ∀ c ∈ ds, c.isDigit = true) (hbig : 2 ^ 31 - 1 < digitsToNat ds) :
    parseI32 ds = none := by
  cases ds with
  | nil => exact absurd rfl hne
  | cons d tl =>
    have hd : d.isDigit = true := hall d (by simp)
    have h1 : ¬(d = '-') := by intro hc; rw [hc] at hd; exact absurd hd (by decide)
    have h2 : ¬(d = '+') := by intro hc; rw [hc] at hd; exact absurd hd (by decide)
    have hall' : (d :: tl).all (·.isDigit) = true := by
      rw [List.all_eq_true]; intro x hx; exact hall x hx
    simp only [parseI32, if_neg h1, if_neg h2, parseI32Digits,
      if_neg (by simp : ¬(d :: tl = [])), hall', if_true, Option.some_bind]
    rw [if_neg (by omega)]

theorem parseI32_neg_overflow {ds : List Char} (hne : ds ≠ [])
    (hall : ∀ c ∈ ds, c.isDigit = true) (hbig : 2 ^ 31 < digitsToNat ds) :
    parseI32 ('-' :: ds) = none := by
  have hall' : ds.all (·.isDigit) = true := by
    rw [List.all_eq_true]; intro x hx; exact hall x hx
  simp only [parseI32, if_pos rfl, parseI32Digits, if_neg hne, hall', if_true, Option.some_bind]
  rw [if_neg (by omega)]

/-! ## Claim theorems: the number scanner -/

/-- C3: a number accepted by the tokenizer is `Float` exactly when the
consumed literal contains a `.` and `Int` exactly when it does not,
regardless of magnitude; `42` gives `Int 42`, `3.14159` gives
`Float 3.14159`, `-0.33` gives `Float (-0.33)`. -/
theorem numeric_variant_follows_decimal_point :
    (∀ (cs : List Char) (n : Number) (rest : List Char),
        tokenizeNumber cs = .ok (n, rest) →
        ∃ lit, cs = lit ++ rest ∧ (n.isFloat = true ↔ '.' ∈ lit))
    ∧ tokenizeNumber "42".toList = .ok (.int 42, [])
    ∧ tokenizeNumber "3.14159".toList = .ok (.float (3.14159 : ℚ), [])
    ∧ tokenizeNumber "-0.33".toList = .ok (.float (-0.33 : ℚ), []) := by
  refine ⟨fun cs n rest h => ?_, rfl, ?_, ?_⟩
  · obtain ⟨lit, heq, hiff, -⟩ := tokenizeNumber_ok_facts h
    exact ⟨lit, heq, hiff⟩
  · have h : tokenizeNumber "3.14159".toList = .ok (.float ((3 : ℚ) + 14159 / 10 ^ 5), []) := rfl
    rw [h]; norm_num
  · have h : tokenizeNumber "-0.33".toList = .ok (.float (-((0 : ℚ) + 33 / 10 ^ 2)), []) := rfl
    rw [h]; norm_num

theorem numeric_variant_follows_decimal_point_witness :
    ∃ lit, "1.5,".toList = lit ++ [','] ∧
      ((Number.float ((1 : ℚ) + 5 / 10 ^ 1)).isFloat = true ↔ '.' ∈ lit) :=
  numeric_variant_follows_decimal_point.1 "1.5,".toList (.float ((1 : ℚ) + 5 / 10 ^ 1)) [','] rfl

/-- C4: an integer literal (no decimal point) whose value lies outside the
signed 32-bit range is rejected with `Invalid integer` — never truncated or
promoted to a float. -/
theorem integer_overflow_rejected :
    (∀ ds : List Char, ds ≠ [] → (∀ c ∈ ds, c.isDigit = true) →
        2 ^ 31 - 1 < digitsToNat ds → tokenizeNumber ds = .error "Invalid integer")
    ∧ (∀ ds : List Char, ds ≠ [] → (∀ c ∈ ds, c.isDigit = true) →
        2 ^ 31 < digitsToNat ds → tokenizeNumber ('-' :: ds) = .error "Invalid integer") := by
  constructor
  · intro ds hne hall hbig
    cases ds with
    | nil => exact absurd rfl hne
    | cons d tl =>
      have hd : d.isDigit = true := hall d (by simp)
      have h1 : ¬(d = '-') := by intro hc; rw [hc] at hd; exact absurd hd (by decide)
      rw [tokenizeNumber, if_neg h1,
        @numLoop_all_digits (d :: tl) hne hall [] false false]
      simp only [List.nil_append, parseNumber, Bool.false_eq_true, if_false,
        parseI32_pos_overflow hne hall hbig]
      rfl
  · intro ds hne hall hbig
    rw [tokenizeNumber, if_pos rfl,
      @numLoop_all_digits ds hne hall ['-'] false false]
    have : ('-' :: ds : List Char) = ['-'] ++ ds := rfl
    simp only [parseNumber, Bool.false_eq_true, if_false]
    rw [show (['-'] ++ ds : List Char) = '-' :: ds from rfl,
      parseI32_neg_overflow hne hall hbig]
    rfl

theorem integer_overflow_rejected_witness :
    tokenizeNumber "2147483648".toList = .error "Invalid integer"
    ∧ tokenizeNumber "-2147483649".toList = .error "Invalid integer" :=
  ⟨integer_overflow_rejected.1 "2147483648".toList (by decide) (by decide) (by decide),
   integer_overflow_rejected.2 "2147483649".toList (by decide) (by decide) (by decide)⟩

/-- C8: a successfully scanned number ends only at end-of-input or at one of
`,` `\n` `\r` space `\x7d` `]`; inside the scan, a second `.`, a `.` with no
digit before it, a `-` after the first character, and any other
non-extending character each fail with `Invalid number` (concretely:
`-52.33.3`, `-52-11` and `12a` are all rejected). -/
theorem number_token_termination :
    (∀ (cs : List Char) (n : Number) (rest : List Char),
        tokenizeNumber cs = .ok (n, rest) →
        rest = [] ∨ ∃ c cs', rest = c :: cs' ∧ isNumTerminator c = true)
    ∧ (∀ (acc : List Char) (hn : Bool) (cs : List Char),
        numLoop acc true hn ('.' :: cs) = .error "Invalid number")
    ∧ (∀ (acc : List Char) (hd : Bool) (cs : List Char),
        numLoop acc hd false ('.' :: cs) = .error "Invalid number")
    ∧ (∀ (acc : List Char) (hd hn : Bool) (cs : List Char),
        numLoop acc hd hn ('-' :: cs) = .error "Invalid number")
    ∧ (∀ (acc : List Char) (hd hn : Bool) (c : Char) (cs : List Char),
        c.isDigit = false → c ≠ '.' → isNumTerminator c = false →
        numLoop acc hd hn (c :: cs) = .error "Invalid number")
    ∧ tokenizeNumber "-52.33.3".toList = .error "Invalid number"
    ∧ tokenizeNumber "-52-11".toList = .error "Invalid number"
    ∧ tokenizeNumber "12a".toList = .error "Invalid number" := by
  refine ⟨fun cs n rest h => (tokenizeNumber_ok_facts h).choose_spec.2.2, ?_, ?_, ?_, ?_, rfl, rfl, rfl⟩
  · intro acc hn cs; rfl
  · intro acc hd cs; cases hd <;> rfl
  · intro acc hd hn cs; rfl
  · intro acc hd hn c cs h1 h2 h3
    simp only [numLoop, h1, Bool.false_eq_true, if_false, if_neg h2, h3]

theorem number_token_termination_witness :
    (([' '] : List Char) = [] ∨ ∃ c cs', ([' '] : List Char) = c :: cs' ∧ isNumTerminator c = true)
    ∧ numLoop ['1'] false true ['a'] = .error "Invalid number" :=
  ⟨number_token_termination.1 "5 ".toList (.int 5) [' '] rfl,
   number_token_termination.2.2.2.2.1 ['1'] false true 'a' [] (by decide) (by decide) (by decide)⟩

/-! ## Lemmas about the string scanner -/

/-- Step equation: a `\uXXXX` escape reduces to the hex-digit check, the
`char::from_u32` conversion and (on success) the continued scan. -/
theorem stringLoop_unicode (acc : List Char) (c1 c2 c3 c4 : Char) (cs : List Char) :
    stringLoop acc ('\\' :: 'u' :: c1 :: c2 :: c3 :: c4 :: cs) =
      (if (isHexDigitChar c1 && isHexDigitChar c2 && isHexDigitChar c3 && isHexDigitChar c4) = true
       then
         match charFromU32 (((hexVal c1 * 16 + hexVal c2) * 16 + hexVal c3) * 16 + hexVal c4) with
         | some u => stringLoop (acc ++ [u]) cs
         | none => Except.error "Invalid unicode code point"
       else Except.error "Invalid unicode escape sequence") := rfl

/-- Step equation: a backslash followed by an unrecognized escape character
fails with `Invalid escape sequence`. -/
theorem stringLoop_bad_escape {e : Char} (h1 : e ≠ '\"') (h2 : e ≠ '\\') (h3 : e ≠ '/')
    (h4 : e ≠ 'b') (h5 : e ≠ 'f') (h6 : e ≠ 'n') (h7 : e ≠ 'r') (h8 : e ≠ 't') (h9 : e ≠ 'u')
    (acc cs2 : List Char) :
    stringLoop acc ('\\' :: e :: cs2) = .error "Invalid escape sequence" := by
  rw [stringLoop.eq_def]
  show (if e = '\"' then stringLoop (acc ++ ['\"']) cs2
    else if e = '\\' then stringLoop (acc ++ ['\\']) cs2
    else if e = '/' then stringLoop (acc ++ ['/']) cs2
    else if e = 'b' then stringLoop (acc ++ ['\x08']) cs2
    else if e = 'f' then stringLoop (acc ++ ['\x0c']) cs2
    else if e = 'n' then stringLoop (acc ++ ['\n']) cs2
    else if e = 'r' then stringLoop (acc ++ ['\r']) cs2
    else if e = 't' then stringLoop (acc ++ ['\t']) cs2
    else if e = 'u' then
      (match cs2 with
       | c1 :: c2 :: c3 :: c4 :: cs3 =>
         if isHexDigitChar c1 && isHexDigitChar c2 && isHexDigitChar c3 && isHexDigitChar c4 then
           match charFromU32 (((hexVal c1 * 16 + hexVal c2) * 16 + hexVal c3) * 16 + hexVal c4) with
           | some u => stringLoop (acc ++ [u]) cs3
           | none => Except.error "Invalid unicode code point"
         else Except.error "Invalid unicode escape sequence"
       | _ => Except.error "Invalid unicode escape sequence")
    else Except.error "Invalid escape sequence") = Except.error "Invalid escape sequence"
  rw [if_neg h1, if_neg h2, if_neg h3, if_neg h4, if_neg h5, if_neg h6, if_neg h7, if_neg h8,
    if_neg h9]

/-- Step equation: an ordinary character (not a quote, not a backslash) is
copied to the accumulator. -/
theorem stringLoop_other {c : Char} (hq : c ≠ '\"') (hbs : c ≠ '\\') (acc cs : List Char) :
    stringLoop acc (c :: cs) = stringLoop (acc ++ [c]) cs := by
  rw [stringLoop.eq_def]
  show (if c = '\"' then Except.ok (String.mk acc, cs)
    else if c = '\\' then
      (match cs with
       | [] => Except.error "EOF reached when parsing escape sequence"
       | e :: cs2 =>
         if e = '\"' then stringLoop (acc ++ ['\"']) cs2
         else if e = '\\' then stringLoop (acc ++ ['\\']) cs2
         else if e = '/' then stringLoop (acc ++ ['/']) cs2
         else if e = 'b' then stringLoop (acc ++ ['\x08']) cs2
         else if e = 'f' then stringLoop (acc ++ ['\x0c']) cs2
         else if e = 'n' then stringLoop (acc ++ ['\n']) cs2
         else if e = 'r' then stringLoop (acc ++ ['\r']) cs2
         else if e = 't' then stringLoop (acc ++ ['\t']) cs2
         else if e = 'u' then
           (match cs2 with
            | c1 :: c2 :: c3 :: c4 :: cs3 =>
              if isHexDigitChar c1 && isHexDigitChar c2 && isHexDigitChar c3 && isHexDigitChar c4 then
                match charFromU32 (((hexVal c1 * 16 + hexVal c2) * 16 + hexVal c3) * 16 + hexVal c4) with
                | some u => stringLoop (acc ++ [u]) cs3
                | none => Except.error "Invalid unicode code point"
              else Except.error "Invalid unicode escape sequence"
            | _ => Except.error "Invalid unicode escape sequence")
         else Except.error "Invalid escape sequence")
    else stringLoop (acc ++ [c]) cs) = stringLoop (acc ++ [c]) cs
  rw [if_neg hq, if_neg hbs]

/-- Step equations for the concrete single-character cases of the string
scanner (quote, each recognized escape, truncated input). -/
theorem stringLoop_quote (acc cs : List Char) :
    stringLoop acc ('\"' :: cs) = .ok (String.mk acc, cs) := by
  rw [stringLoop.eq_def]; rfl

theorem stringLoop_bs_eof (acc : List Char) :
    stringLoop acc ['\\'] = .error "EOF reached when parsing escape sequence" := by
  rw [stringLoop.eq_def]; rfl

theorem stringLoop_esc_quote (acc cs : List Char) :
    stringLoop acc ('\\' :: '\"' :: cs) = stringLoop (acc ++ ['\"']) cs := by
  rw [stringLoop.eq_def]; rfl

theorem stringLoop_esc_bs (acc cs : List Char) :
    stringLoop acc ('\\' :: '\\' :: cs) = stringLoop (acc ++ ['\\']) cs := by
  rw [stringLoop.eq_def]; rfl

theorem stringLoop_esc_slash (acc cs : List Char) :
    stringLoop acc ('\\' :: '/' :: cs) = stringLoop (acc ++ ['/']) cs := by
  rw [stringLoop.eq_def]; rfl

theorem stringLoop_esc_b (acc cs : List Char) :
    stringLoop acc ('\\' :: 'b' :: cs) = stringLoop (acc ++ ['\x08']) cs := by
  rw [stringLoop.eq_def]; rfl

theorem stringLoop_esc_f (acc cs : List Char) :
    stringLoop acc ('\\' :: 'f' :: cs) = stringLoop (acc ++ ['\x0c']) cs := by
  rw [stringLoop.eq_def]; rfl

theorem stringLoop_esc_n (acc cs : List Char) :
    stringLoop acc ('\\' :: 'n' :: cs) = stringLoop (acc ++ ['\n']) cs := by
  rw [stringLoop.eq_def]; rfl

theorem stringLoop_esc_r (acc cs : List Char) :
    stringLoop acc ('\\' :: 'r' :: cs) = stringLoop (acc ++ ['\r']) cs := by
  rw [stringLoop.eq_def]; rfl

theorem stringLoop_esc_t (acc cs : List Char) :
    stringLoop acc ('\\' :: 't' :: cs) = stringLoop (acc ++ ['\t']) cs := by
  rw [stringLoop.eq_def]; rfl

theorem stringLoop_u_short0 (acc : List Char) :
    stringLoop acc ['\\', 'u'] = .error "Invalid unicode escape sequence" := by
  rw [stringLoop.eq_def]; rfl

theorem stringLoop_u_short1 (acc : List Char) (c1 : Char) :
    stringLoop acc ['\\', 'u', c1] = .error "Invalid unicode escape sequence" := by
  rw [stringLoop.eq_def]; rfl

theorem stringLoop_u_short2 (acc : List Char) (c1 c2 : Char) :
    stringLoop acc ['\\', 'u', c1, c2] = .error "Invalid unicode escape sequence" := by
  rw [stringLoop.eq_def]; rfl

theorem stringLoop_u_short3 (acc : List Char) (c1 c2 c3 : Char) :
    stringLoop acc ['\\', 'u', c1, c2, c3] = .error "Invalid unicode escape sequence" := by
  rw [stringLoop.eq_def]; rfl

/-- A successful string scan consumes at least the closing quote: the
remainder is strictly shorter than the input.  (Stated with an explicit
length bound to drive the induction.) -/
theorem stringLoop_rest_le :
    ∀ (n : Nat) (cs : List Char), cs.length ≤ n →
      ∀ (acc : List Char) (s : String) (rest : List Char),
        stringLoop acc cs = .ok (s, rest) → rest.length < cs.length := by
  intro n
  induction n with
  | zero =>
    intro cs hcs acc s rest h
    rw [List.length_eq_zero.mp (Nat.le_zero.mp hcs)] at h
    exact Except.noConfusion h
  | succ n ih =>
    intro cs hcs acc s rest h
    rcases cs with - | ⟨c, cs'⟩
    · exact Except.noConfusion h
    simp only [List.length_cons, Nat.add_le_add_iff_right] at hcs
    by_cases hq : c = '\"'
    · subst hq
      rw [stringLoop_quote] at h
      simp only [Except.ok.injEq, Prod.mk.injEq] at h
      obtain ⟨-, rfl⟩ := h
      simp
    by_cases hbs : c = '\\'
    · subst hbs
      rcases cs' with - | ⟨e, cs2⟩
      · rw [stringLoop_bs_eof] at h
        exact Except.noConfusion h
      simp only [List.length_cons] at hcs
      by_cases h1 : e = '\"'
      · subst h1; rw [stringLoop_esc_quote] at h
        have := ih cs2 (by omega) _ _ _ h
        simp only [List.length_cons]; omega
      by_cases h2 : e = '\\'
      · subst h2; rw [stringLoop_esc_bs] at h
        have := ih cs2 (by omega) _ _ _ h
        simp only [List.length_cons]; omega
      by_cases h3 : e = '/'
      · subst h3; rw [stringLoop_esc_slash] at h
        have := ih cs2 (by omega) _ _ _ h
        simp only [List.length_cons]; omega
      by_cases h4 : e = 'b'
      · subst h4; rw [stringLoop_esc_b] at h
        have := ih cs2 (by omega) _ _ _ h
        simp only [List.length_cons]; omega
      by_cases h5 : e = 'f'
      · subst h5; rw [stringLoop_esc_f] at h
        have := ih cs2 (by omega) _ _ _ h
        simp only [List.length_cons]; omega
      by_cases h6 : e = 'n'
      · subst h6; rw [stringLoop_esc_n] at h
        have := ih cs2 (by omega) _ _ _ h
        simp only [List.length_cons]; omega
      by_cases h7 : e = 'r'
      · subst h7; rw [stringLoop_esc_r] at h
        have := ih cs2 (by omega) _ _ _ h
        simp only [List.length_cons]; omega
      by_cases h8 : e = 't'
      · subst h8; rw [stringLoop_esc_t] at h
        have := ih cs2 (by omega) _ _ _ h
        simp only [List.length_cons]; omega
      by_cases h9 : e = 'u'
      · subst h9
        rcases cs2 with - | ⟨c1, - | ⟨c2, - | ⟨c3, - | ⟨c4, cs3⟩⟩⟩⟩
        · rw [stringLoop_u_short0] at h; exact Except.noConfusion h
        · rw [stringLoop_u_short1] at h; exact Except.noConfusion h
        · rw [stringLoop_u_short2] at h; exact Except.noConfusion h
        · rw [stringLoop_u_short3] at h; exact Except.noConfusion h
        rw [stringLoop_unicode] at h
        split at h
        · split at h
          · have := ih cs3 (by simp at hcs; omega) _ _ _ h
            simp at hcs ⊢
            omega
          · exact Except.noConfusion h
        · exact Except.noConfusion h
      · rw [stringLoop_bad_escape h1 h2 h3 h4 h5 h6 h7 h8 h9] at h
        exact Except.noConfusion h
    · rw [stringLoop_other hq hbs] at h
      have := ih cs' (by omega) _ _ _ h
      simp only [List.length_cons]; omega

/-- Every failure of the string scanner carries one of the five messages
`try_tokenize_string` can produce. -/
theorem stringLoop_error_inventory :
    ∀ (n : Nat) (cs : List Char), cs.length ≤ n →
      ∀ (acc : List Char) (e : String), stringLoop acc cs = .error e →
        e = "EOF reached when parsing string" ∨ e = "EOF reached when parsing escape sequence"
        ∨ e = "Invalid escape sequence" ∨ e = "Invalid unicode escape sequence"
        ∨ e = "Invalid unicode code point" := by
  intro n
  induction n with
  | zero =>
    intro cs hcs acc e h
    rw [List.length_eq_zero.mp (Nat.le_zero.mp hcs)] at h
    have h' : (Except.error "EOF reached when parsing string" : Except String (String × List Char)) = Except.error e := h
    simp only [Except.error.injEq] at h'
    exact Or.inl h'.symm
  | succ n ih =>
    intro cs hcs acc e h
    rcases cs with - | ⟨c, cs'⟩
    · have h' : (Except.error "EOF reached when parsing string" : Except String (String × List Char)) = Except.error e := h
      simp only [Except.error.injEq] at h'
      exact Or.inl h'.symm
    simp only [List.length_cons, Nat.add_le_add_iff_right] at hcs
    by_cases hq : c = '\"'
    · subst hq
      rw [stringLoop_quote] at h
      exact Except.noConfusion h
    by_cases hbs : c = '\\'
    · subst hbs
      rcases cs' with - | ⟨e', cs2⟩
      · rw [stringLoop_bs_eof] at h
        simp only [Except.error.injEq] at h
        exact Or.inr (Or.inl h.symm)
      simp only [List.length_cons] at hcs
      by_cases h1 : e' = '\"'
      · subst h1; rw [stringLoop_esc_quote] at h
        exact ih cs2 (by omega) _ _ h
      by_cases h2 : e' = '\\'
      · subst h2; rw [stringLoop_esc_bs] at h
        exact ih cs2 (by omega) _ _ h
      by_cases h3 : e' = '/'
      · subst h3; rw [stringLoop_esc_slash] at h
        exact ih cs2 (by omega) _ _ h
      by_cases h4 : e' = 'b'
      · subst h4; rw [stringLoop_esc_b] at h
        exact ih cs2 (by omega) _ _ h
      by_cases h5 : e' = 'f'
      · subst h5; rw [stringLoop_esc_f] at h
        exact ih cs2 (by omega) _ _ h
      by_cases h6 : e' = 'n'
      · subst h6; rw [stringLoop_esc_n] at h
        exact ih cs2 (by omega) _ _ h
      by_cases h7 : e' = 'r'
      · subst h7; rw [stringLoop_esc_r] at h
        exact ih cs2 (by omega) _ _ h
      by_cases h8 : e' = 't'
      · subst h8; rw [stringLoop_esc_t] at h
        exact ih cs2 (by omega) _ _ h
      by_cases h9 : e' = 'u'
      · subst h9
        rcases cs2 with - | ⟨c1, - | ⟨c2, - | ⟨c3, - | ⟨c4, cs3⟩⟩⟩⟩
        · rw [stringLoop_u_short0] at h
          simp only [Except.error.injEq] at h
          exact Or.inr (Or.inr (Or.inr (Or.inl h.symm)))
        · rw [stringLoop_u_short1] at h
          simp only [Except.error.injEq] at h
          exact Or.inr (Or.inr (Or.inr (Or.inl h.symm)))
        · rw [stringLoop_u_short2] at h
          simp only [Except.error.injEq] at h
          exact Or.inr (Or.inr (Or.inr (Or.inl h.symm)))
        · rw [stringLoop_u_short3] at h
          simp only [Except.error.injEq] at h
          exact Or.inr (Or.inr (Or.inr (Or.inl h.symm)))
        rw [stringLoop_unicode] at h
        split at h
        · split at h
          · exact ih cs3 (by simp at hcs; omega) _ _ h
          · simp only [Except.error.injEq] at h
            exact Or.inr (Or.inr (Or.inr (Or.inr h.symm)))
        · simp only [Except.error.injEq] at h
          exact Or.inr (Or.inr (Or.inr (Or.inl h.symm)))
      · rw [stringLoop_bad_escape h1 h2 h3 h4 h5 h6 h7 h8 h9] at h
        simp only [Except.error.injEq] at h
        exact Or.inr (Or.inr (Or.inl h.symm))
    · rw [stringLoop_other hq hbs] at h
      exact ih cs' (by omega) _ _ h

/-! ## Claim theorems: strings, whitespace, parser dispatch -/

/-- C6 (counterexample): on the surrogate pair `𝄞` the tokenizer
does NOT decode the two halves independently into the output string — it
fails with `Invalid unicode code point`, because `char::from_u32` rejects
surrogate code points. -/
theorem surrogate_pair_not_decoded_independently :
    tokenizeJson "\"\\uD834\\uDD1E\"".toList = .error "Invalid unicode code point" := rfl

/-- C6 (amended): a `\uXXXX` escape whose value lies in the UTF-16 surrogate
range `0xD800`–`0xDFFF` is rejected with `Invalid unicode code point`; in
particular surrogate pairs are never combined into a supplementary-plane
code point (and never decoded independently either). -/
theorem surrogate_escape_rejected :
    ∀ (c1 c2 c3 c4 : Char) (acc cs : List Char),
      isHexDigitChar c1 = true → isHexDigitChar c2 = true →
      isHexDigitChar c3 = true → isHexDigitChar c4 = true →
      0xD800 ≤ ((hexVal c1 * 16 + hexVal c2) * 16 + hexVal c3) * 16 + hexVal c4 →
      ((hexVal c1 * 16 + hexVal c2) * 16 + hexVal c3) * 16 + hexVal c4 ≤ 0xDFFF →
      stringLoop acc ('\\' :: 'u' :: c1 :: c2 :: c3 :: c4 :: cs) =
        .error "Invalid unicode code point" := by
  intro c1 c2 c3 c4 acc cs h1 h2 h3 h4 hlo hhi
  rw [stringLoop_unicode, if_pos (by rw [h1, h2, h3, h4]; rfl)]
  rw [show charFromU32 (((hexVal c1 * 16 + hexVal c2) * 16 + hexVal c3) * 16 + hexVal c4)
      = none from by unfold charFromU32; rw [if_neg (by omega), if_pos (by omega)]]

theorem surrogate_escape_rejected_witness :
    stringLoop [] ['\\', 'u', 'D', '8', '3', '4', '\"'] = .error "Invalid unicode code point" :=
  surrogate_escape_rejected 'D' '8' '3' '4' [] ['\"'] (by decide) (by decide) (by decide)
    (by decide) (by decide) (by decide)

/-- C7: between tokens, space, newline and carriage return are skipped;
a tab is not whitespace there and fails the whole tokenization with
`Invalid JSON` — while a tab inside a string is an ordinary copied
character. -/
theorem whitespace_skip_rules (cs : List Char) :
    tokenizeJson (' ' :: cs) = tokenizeJson cs
    ∧ tokenizeJson ('\n' :: cs) = tokenizeJson cs
    ∧ tokenizeJson ('\r' :: cs) = tokenizeJson cs
    ∧ tokenizeJson ('\t' :: cs) = .error "Invalid JSON"
    ∧ (∀ acc, stringLoop acc ('\t' :: cs) = stringLoop (acc ++ ['\t']) cs) := by
  refine ⟨rfl, rfl, rfl, rfl, fun acc => stringLoop_other (by decide) (by decide) acc cs⟩

/-- C1: the parser accepts only a document whose first token is `\x7b` or
`[`; any other first token — and the empty token sequence, as produced from
empty input — fails with `Invalid JSON`.  In particular a bare scalar root
such as the single string token from input `"42"` is rejected. -/
theorem root_must_be_object_or_array :
    (∀ ts : List Token, ts.head? ≠ some Token.leftBrace → ts.head? ≠ some Token.leftBracket →
        parseTokens ts = .error "Invalid JSON")
    ∧ parseJson "\"42\"" = .error "Invalid JSON"
    ∧ parseJson "" = .error "Invalid JSON" := by
  refine ⟨fun ts h1 h2 => ?_, rfl, rfl⟩
  match ts with
  | [] => rfl
  | Token.leftBrace :: rest => exact absurd rfl h1
  | Token.leftBracket :: rest => exact absurd rfl h2
  | Token.rightBrace :: rest => rfl
  | Token.rightBracket :: rest => rfl
  | Token.colon :: rest => rfl
  | Token.comma :: rest => rfl
  | Token.string s :: rest => rfl
  | Token.number n :: rest => rfl
  | Token.boolean b :: rest => rfl
  | Token.null :: rest => rfl

theorem root_must_be_object_or_array_witness :
    parseTokens [Token.null] = .error "Invalid JSON" :=
  root_must_be_object_or_array.1 [Token.null] (by decide) (by decide)

/-! Lookup behaviour of `mapInsert` and its folds, for the duplicate-key
claim. -/

theorem bool_eq_false_of_not {b : Bool} (h : ¬(b = true)) : b = false := by
  cases hb : b with
  | true => exact absurd hb h
  | false => rfl

theorem mapLookup_append (m m' : List (String × JsonValue)) (k : String) :
    mapLookup (m ++ m') k =
      match mapLookup m k with
      | some v => some v
      | none => mapLookup m' k := by
  induction m with
  | nil => rfl
  | cons p rest ih =>
    simp only [List.cons_append, mapLookup]
    by_cases hp : (p.1 == k) = true
    · rw [if_pos hp, if_pos hp]
    · rw [if_neg hp, if_neg hp]
      exact ih

theorem mapLookup_map_replace_ne {k0 : String} {v0 : JsonValue} {k : String}
    (hk : (k0 == k) = false) :
    ∀ m : List (String × JsonValue),
      mapLookup (m.map (fun p => if p.1 == k0 then (k0, v0) else p)) k = mapLookup m k := by
  intro m
  induction m with
  | nil => rfl
  | cons p rest ih =>
    simp only [List.map_cons]
    by_cases hp : (p.1 == k0) = true
    · rw [if_pos hp]
      have hpk : (p.1 == k) = false := by rw [eq_of_beq hp]; exact hk
      simp only [mapLookup]
      rw [if_neg (by rw [hk]; exact Bool.false_ne_true),
        if_neg (by rw [hpk]; exact Bool.false_ne_true)]
      exact ih
    · rw [if_neg hp]
      simp only [mapLookup]
      by_cases hq : (p.1 == k) = true
      · rw [if_pos hq, if_pos hq]
      · rw [if_neg hq, if_neg hq]
        exact ih

theorem mapLookup_map_replace_eq {k0 : String} {v0 : JsonValue} {k : String}
    (hk : (k0 == k) = true) :
    ∀ m : List (String × JsonValue), m.any (fun p => p.1 == k0) = true →
      mapLookup (m.map (fun p => if p.1 == k0 then (k0, v0) else p)) k = some v0 := by
  intro m
  induction m with
  | nil => intro hany; exact Bool.noConfusion hany
  | cons p rest ih =>
    intro hany
    simp only [List.map_cons]
    by_cases hp : (p.1 == k0) = true
    · rw [if_pos hp]
      simp only [mapLookup]
      rw [if_pos hk]
    · have hp' : (p.1 == k0) = false := bool_eq_false_of_not hp
      have hrest : rest.any (fun p => p.1 == k0) = true := by
        simp only [List.any_cons, hp', Bool.false_or] at hany
        exact hany
      have hpk : (p.1 == k) = false := by rw [← eq_of_beq hk]; exact hp'
      rw [if_neg hp]
      simp only [mapLookup]
      rw [if_neg (by rw [hpk]; exact Bool.false_ne_true)]
      exact ih hrest

theorem mapLookup_not_found {k0 k : String} (hk : (k0 == k) = true) :
    ∀ m : List (String × JsonValue), m.any (fun p => p.1 == k0) = false →
      mapLookup m k = none := by
  intro m
  induction m with
  | nil => intro hany; rfl
  | cons p rest ih =>
    intro hany
    simp only [List.any_cons, Bool.or_eq_false_iff] at hany
    obtain ⟨hp, hrest⟩ := hany
    have hpk : (p.1 == k) = false := by rw [← eq_of_beq hk]; exact hp
    simp only [mapLookup]
    rw [if_neg (by rw [hpk]; exact Bool.false_ne_true)]
    exact ih hrest

/-- `HashMap::insert` semantics at the lookup level: the inserted key now
maps to the new value; every other key is untouched. -/
theorem mapLookup_insert (m : List (String × JsonValue)) (k0 : String) (v0 : JsonValue)
    (k : String) :
    mapLookup (mapInsert m k0 v0) k = if k0 == k then some v0 else mapLookup m k := by
  unfold mapInsert
  by_cases hany : m.any (fun p => p.1 == k0) = true
  · rw [if_pos hany]
    by_cases hk : (k0 == k) = true
    · rw [if_pos hk]
      exact mapLookup_map_replace_eq hk m hany
    · have hk' : (k0 == k) = false := bool_eq_false_of_not hk
      rw [if_neg hk]
      exact mapLookup_map_replace_ne hk' m
  · have hany' : m.any (fun p => p.1 == k0) = false := bool_eq_false_of_not hany
    rw [if_neg hany, mapLookup_append]
    by_cases hk : (k0 == k) = true
    · rw [mapLookup_not_found hk m hany']
      simp only [mapLookup]
    · rw [if_neg hk]
      cases hm : mapLookup m k with
      | some v => rfl
      | none =>
        simp only [mapLookup]
        rw [if_neg hk]

/-- Folding a sequence of inserts: for every key, the map holds the value of
that key's LAST occurrence in the sequence, falling back to the original
binding when the key never occurs. -/
theorem mapLookup_insertAll (es : List (String × JsonValue)) :
    ∀ (m : List (String × JsonValue)) (k : String),
      mapLookup (insertAll m es) k =
        match lastValue es k with
        | some v => some v
        | none => mapLookup m k := by
  induction es with
  | nil => intro m k; rfl
  | cons p rest ih =>
    intro m k
    obtain ⟨k0, v0⟩ := p
    simp only [insertAll, lastValue]
    rw [ih]
    cases hl : lastValue rest k with
    | some v => rfl
    | none =>
      rw [mapLookup_insert]
      by_cases hk : (k0 == k) = true
      · rw [if_pos hk, if_pos hk]
      · rw [if_neg hk, if_neg hk]

/-- Whenever the source's object loop succeeds, the specification-side entry
reading `objEntries` succeeds on the same tokens with the same remainder,
and the loop's result is exactly the `mapInsert` fold of those entries over
the incoming accumulator. -/
theorem parseObjectLoop_entries :
    ∀ (fuel : Nat) (m : List (String × JsonValue)) (ts : List Token)
      (d : JsonDocument) (rest : List Token),
      parseObjectLoop fuel m ts = .ok (d, rest) →
      ∃ es, objEntries fuel ts = .ok (es, rest) ∧ d = .object (insertAll m es) := by
  intro fuel
  induction fuel with
  | zero => intro m ts d rest h; exact Except.noConfusion h
  | succ fuel ih =>
    intro m ts d rest h
    simp only [parseObjectLoop] at h
    split at h
    · -- closing brace: no entries
      rename_i rest0
      simp only [Except.ok.injEq, Prod.mk.injEq] at h
      obtain ⟨rfl, rfl⟩ := h
      exact ⟨[], rfl, rfl⟩
    · -- a `key : value` entry
      rename_i key rest0
      split at h
      · rename_i rest2
        split at h
        · rename_i v0 rest3 heq
          split at h
          · -- comma: the loop continues on the overwritten accumulator
            rename_i rest4
            obtain ⟨es, hes, rfl⟩ := ih _ _ _ _ h
            refine ⟨(key, v0) :: es, ?_, rfl⟩
            simp only [objEntries, heq, hes]
          · -- closing brace after the entry
            rename_i rest4
            simp only [Except.ok.injEq, Prod.mk.injEq] at h
            obtain ⟨rfl, rfl⟩ := h
            refine ⟨[(key, v0)], ?_, rfl⟩
            simp only [objEntries, heq]
          · exact Except.noConfusion h
        · exact Except.noConfusion h
      · exact Except.noConfusion h
    · exact Except.noConfusion h

/-- C2: for every object parsed — root or nested, with other keys
interleaved, any number of repetitions of a key, and values of any kind —
the resulting mapping holds, for every key, exactly the value of that
key's LAST occurrence among the object's entries (and falls back to the
incoming accumulator binding only when the key never occurs, so a
duplicated key keeps nothing but its last value).  Concretely
`\x7b"a": 1, "a": 2\x7d` parses to an object whose sole entry maps `"a"`
to `2`. -/
theorem duplicate_key_overwritten :
    (∀ (fuel : Nat) (m : List (String × JsonValue)) (ts : List Token)
        (d : JsonDocument) (rest : List Token),
        parseObjectLoop fuel m ts = .ok (d, rest) →
        ∃ es, objEntries fuel ts = .ok (es, rest)
          ∧ d = .object (insertAll m es)
          ∧ ∀ k, mapLookup (insertAll m es) k =
              (match lastValue es k with
               | some v => some v
               | none => mapLookup m k))
    ∧ parseJson "\x7b\"a\": 1, \"a\": 2\x7d" = .ok (.object [("a", .number (.int 2))]) := by
  refine ⟨fun fuel m ts d rest h => ?_, rfl⟩
  obtain ⟨es, hes, hd⟩ := parseObjectLoop_entries fuel m ts d rest h
  exact ⟨es, hes, hd, fun k => mapLookup_insertAll es m k⟩

theorem duplicate_key_overwritten_witness :
    ∃ es, objEntries 12 [Token.string "a", Token.colon, Token.number (.int 1), Token.comma,
        Token.string "b", Token.colon, Token.null, Token.comma,
        Token.string "a", Token.colon, Token.number (.int 2), Token.rightBrace]
        = .ok (es, [])
      ∧ (JsonDocument.object [("a", .number (.int 2)), ("b", .null)] : JsonDocument)
          = .object (insertAll [] es)
      ∧ ∀ k, mapLookup (insertAll [] es) k =
          (match lastValue es k with
           | some v => some v
           | none => mapLookup [] k) :=
  duplicate_key_overwritten.1 12 []
    [Token.string "a", Token.colon, Token.number (.int 1), Token.comma,
     Token.string "b", Token.colon, Token.null, Token.comma,
     Token.string "a", Token.colon, Token.number (.int 2), Token.rightBrace]
    (.object [("a", .number (.int 2)), ("b", .null)]) [] rfl

/-- C10: the parser does not require the cursor to be exhausted after the
root document closes — trailing tokens are silently ignored, e.g.
`[1] true` and `\x7b\x7d \x7d` both parse successfully to just the root. -/
theorem trailing_tokens_ignored :
    parseJson "[1] true" = .ok (.array [.number (.int 1)])
    ∧ parseJson "\x7b\x7d \x7d" = .ok (.object []) := ⟨rfl, rfl⟩

/-- C9: parsing is deterministic — two successful parses of the same input
are structurally equal. -/
theorem parse_deterministic :
    ∀ (s : String) (d1 d2 : JsonDocument),
      parseJson s = .ok d1 → parseJson s = .ok d2 → d1 = d2 := by
  intro s d1 d2 h1 h2
  rw [h1] at h2
  injection h2 with h

theorem parse_deterministic_witness : (JsonDocument.array [] : JsonDocument) = .array [] :=
  parse_deterministic "[]" (.array []) (.array []) rfl rfl

/-! ## Totality of the tokenizer: the fuel sentinel is unreachable and every
failure carries one of the source's messages -/

theorem except_map_error {α β : Type} {f : α → β} {x : Except String α} {e : String}
    (h : x.map f = .error e) : x = .error e := by
  cases x with
  | ok a => exact Except.noConfusion h
  | error e' => simpa [Except.map] using h

theorem tokenizeNumber_consumes {cs : List Char} {n : Number} {rest : List Char}
    (h : tokenizeNumber cs = .ok (n, rest)) : rest.length < cs.length := by
  rcases cs with - | ⟨c, tl⟩
  · exact Except.noConfusion h
  · simp only [tokenizeNumber] at h
    split at h
    · -- the leading minus itself was consumed
      obtain ⟨lit, heq, -, -, -⟩ := numLoop_ok_facts h
      have : rest.length ≤ tl.length := by rw [heq]; simp
      simp only [List.length_cons]; omega
    · obtain ⟨lit, heq, -, -, hnil⟩ := numLoop_ok_facts h
      cases lit with
      | cons l ls =>
        rw [heq]
        simp only [List.cons_append, List.length_cons, List.length_append]
        omega
      | nil =>
        have hbad := hnil rfl
        rw [show parseNumber [] false = Except.error "Invalid integer" from rfl] at hbad
        exact Except.noConfusion hbad

theorem tokenizeNumber_error_inventory {cs : List Char} {e : String}
    (h : tokenizeNumber cs = .error e) :
    e = "Invalid number" ∨ e = "Invalid float" ∨ e = "Invalid integer" := by
  rcases cs with - | ⟨c, tl⟩
  · exact numLoop_error_inventory h
  · simp only [tokenizeNumber] at h
    split at h
    · exact numLoop_error_inventory h
    · exact numLoop_error_inventory h

theorem classify_keyword_length {c : Char} {w : List Char} {t : Token}
    (h : classify c = .keyword w t) : w.length = 4 ∨ w.length = 5 := by
  delta classify at h
  by_cases h1 : c = '\x7b'
  · rw [if_pos h1] at h; exact CharClass.noConfusion h
  rw [if_neg h1] at h
  by_cases h2 : c = '\x7d'
  · rw [if_pos h2] at h; exact CharClass.noConfusion h
  rw [if_neg h2] at h
  by_cases h3 : c = '['
  · rw [if_pos h3] at h; exact CharClass.noConfusion h
  rw [if_neg h3] at h
  by_cases h4 : c = ']'
  · rw [if_pos h4] at h; exact CharClass.noConfusion h
  rw [if_neg h4] at h
  by_cases h5 : c = ':'
  · rw [if_pos h5] at h; exact CharClass.noConfusion h
  rw [if_neg h5] at h
  by_cases h6 : c = ','
  · rw [if_pos h6] at h; exact CharClass.noConfusion h
  rw [if_neg h6] at h
  by_cases h7 : c = 'n'
  · rw [if_pos h7] at h; cases h; simp
  rw [if_neg h7] at h
  by_cases h8 : c = 't'
  · rw [if_pos h8] at h; cases h; simp
  rw [if_neg h8] at h
  by_cases h9 : c = 'f'
  · rw [if_pos h9] at h; cases h; simp
  rw [if_neg h9] at h
  by_cases h10 : c = '\"'
  · rw [if_pos h10] at h; exact CharClass.noConfusion h
  rw [if_neg h10] at h
  by_cases h11 : (c.isDigit || c = '-') = true
  · rw [if_pos h11] at h; exact CharClass.noConfusion h
  rw [if_neg h11] at h
  by_cases h12 : (c = ' ' || c = '\n' || c = '\r') = true
  · rw [if_pos h12] at h; exact CharClass.noConfusion h
  rw [if_neg h12] at h
  exact CharClass.noConfusion h

/-- With fuel exceeding the input length the scanning loop never reaches the
fuel sentinel: every failure carries one of the source's messages. -/
theorem tokLoop_error_inventory :
    ∀ (fuel : Nat) (cs : List Char), cs.length < fuel →
      ∀ e, tokLoop fuel cs = .error e → e ∈ sourceErrorMessages := by
  intro fuel
  induction fuel with
  | zero => intro cs h e hh; omega
  | succ fuel ih =>
    intro cs hlen e h
    rcases cs with - | ⟨c, cs'⟩
    · exact Except.noConfusion h
    simp only [List.length_cons] at hlen
    simp only [tokLoop] at h
    split at h
    · -- structural character
      exact ih cs' (by omega) e (except_map_error h)
    · -- keyword (null / true / false)
      rename_i w t heqc
      split at h
      · have hw := classify_keyword_length heqc
        have hdrop : ((c :: cs').drop w.length).length = (cs'.length + 1) - w.length := by
          simp
        refine ih _ ?_ e (except_map_error h)
        rw [hdrop]; omega
      · have h' : (Except.error "Invalid JSON" : Except String (List Token))
            = Except.error e := h
        simp only [Except.error.injEq] at h'
        subst h'
        simp [sourceErrorMessages]
    · -- string
      cases hs : stringLoop [] cs' with
      | ok p =>
        obtain ⟨s, rest⟩ := p
        rw [hs] at h
        have h' : (tokLoop fuel rest).map (Token.string s :: ·) = .error e := h
        have hrest := stringLoop_rest_le cs'.length cs' le_rfl [] s rest hs
        exact ih rest (by omega) e (except_map_error h')
      | error e' =>
        rw [hs] at h
        have h' : (Except.error e' : Except String (List Token)) = Except.error e := h
        simp only [Except.error.injEq] at h'
        subst h'
        have := stringLoop_error_inventory cs'.length cs' le_rfl [] e' hs
        rcases this with h' | h' | h' | h' | h' <;> subst h' <;> simp [sourceErrorMessages]
    · -- number
      cases hn : tokenizeNumber (c :: cs') with
      | ok p =>
        obtain ⟨n, rest⟩ := p
        rw [hn] at h
        have h' : (tokLoop fuel rest).map (Token.number n :: ·) = .error e := h
        have hrest := tokenizeNumber_consumes hn
        simp only [List.length_cons] at hrest
        exact ih rest (by omega) e (except_map_error h')
      | error e' =>
        rw [hn] at h
        have h' : (Except.error e' : Except String (List Token)) = Except.error e := h
        simp only [Except.error.injEq] at h'
        subst h'
        rcases tokenizeNumber_error_inventory hn with h' | h' | h' <;> subst h' <;>
          simp [sourceErrorMessages]
    · -- whitespace
      exact ih cs' (by omega) e h
    · -- invalid character
      simp only [Except.error.injEq] at h
      subst h
      simp [sourceErrorMessages]

theorem tokenizeJson_error_inventory {cs : List Char} {e : String}
    (h : tokenizeJson cs = .error e) : e ∈ sourceErrorMessages :=
  tokLoop_error_inventory (cs.length + 1) cs (by omega) e h

/-! ## Totality of the parser -/

/-- The three parsing routines only ever consume tokens: on success the
remaining cursor is no longer than the input. -/
theorem parser_rest_le :
    ∀ fuel : Nat,
      (∀ ts v rest, parseValue fuel ts = .ok (v, rest) → rest.length ≤ ts.length)
      ∧ (∀ m ts d rest, parseObjectLoop fuel m ts = .ok (d, rest) → rest.length ≤ ts.length)
      ∧ (∀ arr ts d rest, parseArrayLoop fuel arr ts = .ok (d, rest) → rest.length ≤ ts.length) := by
  intro fuel
  induction fuel with
  | zero =>
    exact ⟨fun ts v rest h => Except.noConfusion h,
      fun m ts d rest h => Except.noConfusion h,
      fun arr ts d rest h => Except.noConfusion h⟩
  | succ fuel ih =>
    obtain ⟨ihv, iho, iha⟩ := ih
    refine ⟨?_, ?_, ?_⟩
    · intro ts v rest h
      simp only [parseValue] at h
      split at h
      · -- leftBrace
        rename_i rest0
        split at h
        · rename_i d0 rest2 heq
          simp only [Except.ok.injEq, Prod.mk.injEq] at h
          obtain ⟨-, rfl⟩ := h
          have := iho _ _ _ _ heq
          simp only [List.length_cons]; omega
        · exact Except.noConfusion h
      · -- leftBracket
        rename_i rest0
        split at h
        · rename_i d0 rest2 heq
          simp only [Except.ok.injEq, Prod.mk.injEq] at h
          obtain ⟨-, rfl⟩ := h
          have := iha _ _ _ _ heq
          simp only [List.length_cons]; omega
        · exact Except.noConfusion h
      · -- null
        rename_i rest0
        simp only [Except.ok.injEq, Prod.mk.injEq] at h
        obtain ⟨-, rfl⟩ := h
        simp
      · -- number
        rename_i n0 rest0
        simp only [Except.ok.injEq, Prod.mk.injEq] at h
        obtain ⟨-, rfl⟩ := h
        simp
      · -- string
        rename_i s0 rest0
        simp only [Except.ok.injEq, Prod.mk.injEq] at h
        obtain ⟨-, rfl⟩ := h
        simp
      · -- boolean
        rename_i b0 rest0
        simp only [Except.ok.injEq, Prod.mk.injEq] at h
        obtain ⟨-, rfl⟩ := h
        simp
      · exact Except.noConfusion h
    · intro m ts d rest h
      simp only [parseObjectLoop] at h
      split at h
      · -- rightBrace
        rename_i rest0
        simp only [Except.ok.injEq, Prod.mk.injEq] at h
        obtain ⟨-, rfl⟩ := h
        simp
      · -- string key
        rename_i key rest0
        split at h
        · -- colon
          rename_i rest2
          split at h
          · rename_i v0 rest3 heq
            split at h
            · -- comma: continue the loop
              rename_i rest4
              have h1 := iho _ _ _ _ h
              have h2 := ihv _ _ _ heq
              simp only [List.length_cons] at *
              omega
            · -- closing brace
              rename_i rest4
              simp only [Except.ok.injEq, Prod.mk.injEq] at h
              obtain ⟨-, rfl⟩ := h
              have h2 := ihv _ _ _ heq
              simp only [List.length_cons] at *
              omega
            · exact Except.noConfusion h
          · exact Except.noConfusion h
        · exact Except.noConfusion h
      · exact Except.noConfusion h
    · intro arr ts d rest h
      simp only [parseArrayLoop] at h
      split at h
      · -- rightBracket
        rename_i rest0
        simp only [Except.ok.injEq, Prod.mk.injEq] at h
        obtain ⟨-, rfl⟩ := h
        simp
      · exact Except.noConfusion h
      · -- an element follows
        split at h
        · rename_i v0 rest2 heq
          split at h
          · -- comma: continue the loop
            rename_i rest3
            have h1 := iha _ _ _ _ h
            have h2 := ihv _ _ _ heq
            simp only [List.length_cons] at *
            omega
          · -- closing bracket
            rename_i rest3
            simp only [Except.ok.injEq, Prod.mk.injEq] at h
            obtain ⟨-, rfl⟩ := h
            have h2 := ihv _ _ _ heq
            simp only [List.length_cons] at *
            omega
          · exact Except.noConfusion h
        · exact Except.noConfusion h

/-- With fuel at least `2·|tokens| + constant`, the parsing routines never
reach the fuel sentinel: every failure is `Unexpected token` (or, for
arrays, `Unexpected end of array`). -/
theorem parser_error_inventory :
    ∀ fuel : Nat,
      (∀ ts e, 2 * ts.length + 1 ≤ fuel → parseValue fuel ts = .error e →
          e = "Unexpected token" ∨ e = "Unexpected end of array")
      ∧ (∀ m ts e, 2 * ts.length + 2 ≤ fuel → parseObjectLoop fuel m ts = .error e →
          e = "Unexpected token" ∨ e = "Unexpected end of array")
      ∧ (∀ arr ts e, 2 * ts.length + 2 ≤ fuel → parseArrayLoop fuel arr ts = .error e →
          e = "Unexpected token" ∨ e = "Unexpected end of array") := by
  intro fuel
  induction fuel with
  | zero =>
    exact ⟨fun ts e hb h => by omega, fun m ts e hb h => by omega,
      fun arr ts e hb h => by omega⟩
  | succ fuel ih =>
    obtain ⟨ihv, iho, iha⟩ := ih
    refine ⟨?_, ?_, ?_⟩
    · intro ts e hb h
      simp only [parseValue] at h
      split at h
      · -- leftBrace
        rename_i rest0
        split at h
        · exact Except.noConfusion h
        · rename_i e' heq
          simp only [Except.error.injEq] at h
          subst h
          simp only [List.length_cons] at hb
          exact iho [] rest0 e' (by omega) heq
      · -- leftBracket
        rename_i rest0
        split at h
        · exact Except.noConfusion h
        · rename_i e' heq
          simp only [Except.error.injEq] at h
          subst h
          simp only [List.length_cons] at hb
          -- an array can also fail with its own end-of-input message;
          -- `parse_value` forwards it verbatim
          exact iha [] rest0 e' (by omega) heq
      · exact Except.noConfusion h
      · exact Except.noConfusion h
      · exact Except.noConfusion h
      · exact Except.noConfusion h
      · simp only [Except.error.injEq] at h
        exact Or.inl h.symm
    · intro m ts e hb h
      simp only [parseObjectLoop] at h
      split at h
      · exact Except.noConfusion h
      · -- string key
        rename_i key rest0
        split at h
        · -- colon
          rename_i rest2
          simp only [List.length_cons] at hb
          split at h
          · rename_i v0 rest3 heq
            split at h
            · -- comma: continue the loop
              rename_i rest4
              have hr := (parser_rest_le fuel).1 _ _ _ heq
              simp only [List.length_cons] at hr
              exact iho _ _ _ (by omega) h
            · exact Except.noConfusion h
            · simp only [Except.error.injEq] at h
              exact Or.inl h.symm
          · rename_i e' heq
            simp only [Except.error.injEq] at h
            subst h
            exact ihv rest2 e' (by omega) heq
        · simp only [Except.error.injEq] at h
          exact Or.inl h.symm
      · simp only [Except.error.injEq] at h
        exact Or.inl h.symm
    · intro arr ts e hb h
      simp only [parseArrayLoop] at h
      split at h
      · exact Except.noConfusion h
      · simp only [Except.error.injEq] at h
        exact Or.inr h.symm
      · split at h
        · rename_i v0 rest2 heq
          split at h
          · -- comma: continue the loop
            rename_i rest3
            have hr := (parser_rest_le fuel).1 _ _ _ heq
            simp only [List.length_cons] at hr
            exact iha _ _ _ (by omega) h
          · exact Except.noConfusion h
          · simp only [Except.error.injEq] at h
            exact Or.inl h.symm
        · rename_i e' heq
          simp only [Except.error.injEq] at h
          subst h
          exact ihv ts e' (by omega) heq

theorem parseTokens_error_inventory {ts : List Token} {e : String}
    (h : parseTokens ts = .error e) : e ∈ sourceErrorMessages := by
  simp only [parseTokens] at h
  split at h
  · -- leftBrace root
    rename_i rest
    split at h
    · exact Except.noConfusion h
    · rename_i e' heq
      simp only [Except.error.injEq] at h
      subst h
      rcases (parser_error_inventory (2 * (Token.leftBrace :: rest).length + 2)).2.1
        [] rest e' (by simp only [List.length_cons]; omega) heq with h' | h' <;> subst h' <;>
        simp [sourceErrorMessages]
  · -- leftBracket root
    rename_i rest
    split at h
    · exact Except.noConfusion h
    · rename_i e' heq
      simp only [Except.error.injEq] at h
      subst h
      rcases (parser_error_inventory (2 * (Token.leftBracket :: rest).length + 2)).2.2
        [] rest e' (by simp only [List.length_cons]; omega) heq with h' | h' <;> subst h' <;>
        simp [sourceErrorMessages]
  · simp only [Except.error.injEq] at h
    subst h
    simp [sourceErrorMessages]

/-! ## Claim theorem: totality of `parse_json` -/

/-- C5: for every input string `parse_json` is total: it returns either a
fully built document or a single error value drawn from the source's error
taxonomy — never a panic, never a partial tree.  (In this embedding the
loops run on explicit fuel; membership of every error in
`sourceErrorMessages` in particular proves the fuel sentinel is
unreachable, i.e. the source's loops terminate on every input.) -/
theorem parse_json_total_error_taxonomy :
    ∀ s : String, (∃ d, parseJson s = .ok d) ∨
      (∃ e, parseJson s = .error e ∧ e ∈ sourceErrorMessages) := by
  intro s
  unfold parseJson
  cases ht : tokenizeJson s.toList with
  | error e => exact Or.inr ⟨e, rfl, tokenizeJson_error_inventory ht⟩
  | ok toks =>
    cases hp : parseTokens toks with
    | ok d => exact Or.inl ⟨d, hp⟩
    | error e => exact Or.inr ⟨e, hp, parseTokens_error_inventory hp⟩

end Nail
